import Mathlib

/-!
Shallow embedding of the key-derivation core of hdcp-gen-key (src/src/hdcp.cpp)
together with theorems settling the specification claims about it.

Modelling conventions:
* `std::bitset<N>` values are `Nat`s; where a theorem needs the `N`-bit bound it
  carries it as a hypothesis.  Bit `z` of a bitset is `Nat.testBit` at `z`.
* The 1600-entry Master Key Matrix `std::array<std::bitset<56>, 1600>` is a
  total function `Nat → Nat`; the `< 2^56` entry invariant guaranteed by the
  C++ element type appears as an explicit hypothesis, and in-bounds access is
  established by the theorems themselves.
* `std::uint64_t` arithmetic wraps modulo `2 ^ 64`, written explicitly.
* `std::string` is `List Char`.
-/

namespace HdcpGenKey

/-- The lowercase hex-digit lookup table `hex_map` used by `bitset_to_hex`. -/
def hex_map : List Char :=
  "0123456789abcdef".toList

/-- Models `char_to_uint8_t` from hdcp.cpp: a `switch` mapping each of the
sixteen lowercase hex digit characters to its nibble value; any other character
reaches the default branch and yields `0`. -/
def char_to_uint8_t (c : Char) : Nat :=
  match c with
  | '0' => 0
  | '1' => 1
  | '2' => 2
  | '3' => 3
  | '4' => 4
  | '5' => 5
  | '6' => 6
  | '7' => 7
  | '8' => 8
  | '9' => 9
  | 'a' => 10
  | 'b' => 11
  | 'c' => 12
  | 'd' => 13
  | 'e' => 14
  | 'f' => 15
  | _ => 0

/-- Models `bitset_to_hex<bits>` from hdcp.cpp: character `i` (from the most
significant end) is `hex_map[nibble]` where the nibble is assembled bit by bit
from bits `bits-1-4i-k` of `num` (`k = 0..3`), setting bit `3-k` of the nibble.
The `getD _ ' '` default mirrors the pre-allocated string of spaces; it is
never used because the nibble is always below 16. -/
def bitset_to_hex (bits : Nat) (num : Nat) : List Char :=
  (List.range (bits / 4)).map (fun i =>
    hex_map.getD
      ((List.range 4).foldl
        (fun nibble_value k =>
          if num.testBit (bits - 1 - i * 4 - k) then nibble_value ||| (1 <<< (3 - k))
          else nibble_value)
        0)
      ' ')

/-- Models `ksv_string_to_bitset<bits>` from hdcp.cpp.  The source left-pads
the input with `'0'` up to 15 characters when it is shorter than 15, reverses
the string, and reads characters 0..15 through `char_to_uint8_t` into the
sixteen 4-bit fields `u0..u15` of a `union` shared with a `std::uint64_t`
(little-endian layout on the target platform, so the stored number is
`Σ u_j * 16^j`).  Reading one past the end of a 15-character `std::string`
yields the terminating NUL character, modelled by the `getD` default
`Char.ofNat 0`, which `char_to_uint8_t` maps to 0.  Each field value is below
16 (`char_to_uint8_t_lt`), so the 4-bit field truncation is a no-op and is
omitted.  The final assignment of the `uint64_t` into `std::bitset<bits>`
keeps the low `bits` bits: `% 2 ^ bits`. -/
def ksv_string_to_bitset (bits : Nat) (s : List Char) : Nat :=
  let string_to_convert : List Char :=
    if s.length < 15 then (List.replicate (15 - s.length) '0' ++ s).reverse
    else s.reverse
  let u : Nat → Nat := fun j => char_to_uint8_t (string_to_convert.getD j (Char.ofNat 0))
  (u 0 + u 1 * 16 + u 2 * 16 ^ 2 + u 3 * 16 ^ 3 + u 4 * 16 ^ 4 + u 5 * 16 ^ 5 +
      u 6 * 16 ^ 6 + u 7 * 16 ^ 7 + u 8 * 16 ^ 8 + u 9 * 16 ^ 9 + u 10 * 16 ^ 10 +
      u 11 * 16 ^ 11 + u 12 * 16 ^ 12 + u 13 * 16 ^ 13 + u 14 * 16 ^ 14 + u 15 * 16 ^ 15)
    % 2 ^ bits

/-- Models `generate_source` from hdcp.cpp: for each `i < 40`, a `uint64_t`
accumulator starts at 0 and, for each `z < 40` with KSV bit `z` set, adds the
matrix entry at linear index `z * 40 + i` (wrapping modulo `2 ^ 64` as
`uint64_t` addition does); the result entry is the accumulator masked with
`0xffffffffffffff`, i.e. reduced modulo `2 ^ 56`. -/
def generate_source (ksv : Nat) (key : Nat → Nat) : List Nat :=
  (List.range 40).map (fun i =>
    ((List.range 40).foldl
      (fun temp z =>
        if ksv.testBit z then (temp + key (z * 40 + i)) % 2 ^ 64 else temp)
      0) % 2 ^ 56)

/-- Models `generate_sink` from hdcp.cpp: identical to `generate_source`
except the matrix entry for output slot `i` and KSV bit `z` is taken at linear
index `i * 40 + z`. -/
def generate_sink (ksv : Nat) (key : Nat → Nat) : List Nat :=
  (List.range 40).map (fun i =>
    ((List.range 40).foldl
      (fun temp z =>
        if ksv.testBit z then (temp + key (i * 40 + z)) % 2 ^ 64 else temp)
      0) % 2 ^ 56)

/-- Assembles a natural number from its low `n` bits given as a predicate:
`natOfBits f n` has bit `i` equal to `f i` for `i < n` and 0 above. -/
def natOfBits (f : Nat → Bool) : Nat → Nat
  | 0 => 0
  | n + 1 => natOfBits f n + (if f n then 2 ^ n else 0)

/-- Models `random_ksv` from hdcp.cpp with the shuffled index vector made an
explicit input: the source builds `indices = shuffle([0..39])` with a
Mersenne-Twister generator and sets `shuffled_bs[i] = bs[indices[i]]` where
`bs = 0xfffff` (the canonical KSV with the 20 low-order bits set).  Bit `i` of
the result is therefore bit `indices i` of `0xfffff`. -/
def random_ksv (indices : Nat → Nat) : Nat :=
  natOfBits (fun i => (0xfffff : Nat).testBit (indices i)) 40

/-- Models `std::bitset<40>::count()`: the number of set bits among positions
0..39, i.e. the Hamming weight of a 40-bit value. -/
def popcount40 (v : Nat) : Nat :=
  (List.range 40).countP (fun z => v.testBit z)

/-- Models `check_ksv` from hdcp.cpp, which returns `ksv.count() != 20`. -/
def check_ksv (ksv : Nat) : Bool :=
  popcount40 ksv != 20

/-- Spec-side reading of `fromHex`: interpret a string as a hexadecimal number
with the most significant digit first, each character contributing the nibble
`char_to_uint8_t` assigns to it. -/
def hexValue (s : List Char) : Nat :=
  s.foldl (fun acc c => 16 * acc + char_to_uint8_t c) 0

/-- Spec-side reading of `deriveSource` entry `i`: the exact (unbounded) sum of
the matrix entries at linear index `z * 40 + i` over the set bits `z < 40` of
the KSV. -/
def source_sum (ksv : Nat) (key : Nat → Nat) (i : Nat) : Nat :=
  (((List.range 40).filter (fun z => ksv.testBit z)).map (fun z => key (z * 40 + i))).sum

/-- Spec-side reading of `deriveSink` entry `i`: the exact (unbounded) sum of
the matrix entries at linear index `i * 40 + z` over the set bits `z < 40` of
the KSV. -/
def sink_sum (ksv : Nat) (key : Nat → Nat) (i : Nat) : Nat :=
  (((List.range 40).filter (fun z => ksv.testBit z)).map (fun z => key (i * 40 + z))).sum

/-- Little-endian read of the first `k` nibbles of a character list with NUL
(nibble 0) past the end: `Σ_{j<k} char_to_uint8_t (t[j]) * 16^j`. -/
def parseK (k : Nat) (t : List Char) : Nat :=
  ((List.range k).map (fun j => char_to_uint8_t (t.getD j (Char.ofNat 0)) * 16 ^ j)).sum

/-- The hex digits of `v` rendered most significant first over `n` positions:
entry `i` is `v / 16^(n-1-i) % 16`. -/
def digits (n v : Nat) : List Nat :=
  (List.range n).map (fun i => v / 16 ^ (n - 1 - i) % 16)

/-! ## Helper lemmas -/

/-- `char_to_uint8_t` always returns a nibble value. -/
theorem char_to_uint8_t_lt (c : Char) : char_to_uint8_t c < 16 := by
  unfold char_to_uint8_t
  split <;> norm_num

/-- The NUL character is mapped to nibble 0. -/
theorem char_to_uint8_t_null : char_to_uint8_t (Char.ofNat 0) = 0 := by decide

/-- `natOfBits f n` only has bits below position `n`. -/
theorem natOfBits_lt (f : Nat → Bool) : ∀ n, natOfBits f n < 2 ^ n
  | 0 => by simp [natOfBits]
  | n + 1 => by
    have ih := natOfBits_lt f n
    have h2 : 2 ^ (n + 1) = 2 ^ n + 2 ^ n := by ring
    simp only [natOfBits]
    split <;> omega

/-- Bit `j` of `natOfBits f n` is `f j` for `j < n` and `false` above. -/
theorem testBit_natOfBits (f : Nat → Bool) :
    ∀ n j, (natOfBits f n).testBit j = (decide (j < n) && f j)
  | 0, j => by simp [natOfBits]
  | n + 1, j => by
    have ih := testBit_natOfBits f n j
    have hlt := natOfBits_lt f n
    have hsplit : natOfBits f (n + 1) = natOfBits f n + (if f n then 2 ^ n else 0) := rfl
    rw [hsplit]
    cases hf : f n with
    | true =>
      rw [if_pos (by simp [hf])]
      rcases Nat.lt_trichotomy j n with hj | hj | hj
      · rw [Nat.add_comm, Nat.testBit_two_pow_add_gt hj, ih]
        have h1 : j < n + 1 := by omega
        simp [hj, h1]
      · subst hj
        rw [Nat.add_comm, Nat.testBit_two_pow_add_eq, Nat.testBit_lt_two_pow hlt]
        simp [hf]
      · have hv : natOfBits f n + 2 ^ n < 2 ^ j := by
          have h1 : 2 ^ (n + 1) ≤ 2 ^ j := Nat.pow_le_pow_right (by norm_num) hj
          have h2 : 2 ^ (n + 1) = 2 ^ n + 2 ^ n := by ring
          omega
        rw [Nat.testBit_lt_two_pow hv]
        have h1 : ¬(j < n + 1) := by omega
        simp [h1]
    | false =>
      rw [if_neg (by simp [hf]), Nat.add_zero, ih]
      by_cases hj : j = n
      · subst hj
        simp [hf]
      · have h1 : (j < n) ↔ (j < n + 1) := by omega
        simp [h1]

/-- A guarded accumulation over a list equals the wrapped-add fold of the
filtered and mapped term list. -/
theorem foldl_guard_filter (P : Nat → Bool) (g : Nat → Nat) :
    ∀ (l : List Nat) (acc : Nat),
      l.foldl (fun temp z => if P z then (temp + g z) % 2 ^ 64 else temp) acc =
        ((l.filter P).map g).foldl (fun temp x => (temp + x) % 2 ^ 64) acc
  | [], _ => rfl
  | z :: l, acc => by
    by_cases hp : P z = true
    · simp [List.filter_cons, hp]
      exact foldl_guard_filter P g l _
    · simp [List.filter_cons, hp]
      exact foldl_guard_filter P g l acc

/-- Folding wrapped 64-bit addition computes the exact sum modulo `2 ^ 64`. -/
theorem foldl_wrap_add :
    ∀ (l : List Nat) (acc : Nat), acc < 2 ^ 64 →
      l.foldl (fun temp x => (temp + x) % 2 ^ 64) acc = (acc + l.sum) % 2 ^ 64
  | [], acc, hacc => by
    simp only [List.foldl_nil, List.sum_nil, Nat.add_zero]
    omega
  | x :: l, acc, hacc => by
    rw [List.foldl_cons, foldl_wrap_add l _ (Nat.mod_lt _ (by norm_num))]
    rw [Nat.mod_add_mod, List.sum_cons, Nat.add_assoc]

/-- A list of at most 40 values each below `2 ^ 56` sums to less than `2 ^ 64`. -/
theorem sum_lt_two_pow_64 (l : List Nat) (hlen : l.length ≤ 40)
    (hel : ∀ x ∈ l, x < 2 ^ 56) : l.sum < 2 ^ 64 := by
  have hb := List.sum_le_card_nsmul l (2 ^ 56 - 1) (fun x hx => by
    have := hel x hx; omega)
  have hmul : l.length • (2 ^ 56 - 1) ≤ 40 * (2 ^ 56 - 1) := by
    rw [smul_eq_mul]
    exact Nat.mul_le_mul_right _ hlen
  omega

/-- Entry `i < 40` of `generate_source` is the wrapped accumulation for `i`,
masked to 56 bits. -/
theorem generate_source_getD (ksv : Nat) (key : Nat → Nat) (i : Nat) (hi : i < 40) :
    (generate_source ksv key).getD i 0 =
      ((List.range 40).foldl
        (fun temp z => if ksv.testBit z then (temp + key (z * 40 + i)) % 2 ^ 64 else temp)
        0) % 2 ^ 56 := by
  simp [generate_source, List.getD_eq_getElem?_getD, List.getElem?_map,
    List.getElem?_range, hi]

/-- Entry `i < 40` of `generate_sink` is the wrapped accumulation for `i`,
masked to 56 bits. -/
theorem generate_sink_getD (ksv : Nat) (key : Nat → Nat) (i : Nat) (hi : i < 40) :
    (generate_sink ksv key).getD i 0 =
      ((List.range 40).foldl
        (fun temp z => if ksv.testBit z then (temp + key (i * 40 + z)) % 2 ^ 64 else temp)
        0) % 2 ^ 56 := by
  simp [generate_sink, List.getD_eq_getElem?_getD, List.getElem?_map,
    List.getElem?_range, hi]

/-- The term list summed for one output slot: at most 40 entries, each a matrix
entry. -/
theorem filtered_terms_facts (ksv : Nat) (key : Nat → Nat) (hkey : ∀ j, key j < 2 ^ 56)
    (g : Nat → Nat) :
    (∀ x ∈ ((List.range 40).filter (fun z => ksv.testBit z)).map (fun z => key (g z)),
        x < 2 ^ 56) ∧
      (((List.range 40).filter (fun z => ksv.testBit z)).map (fun z => key (g z))).length ≤ 40 := by
  constructor
  · intro x hx
    simp only [List.mem_map] at hx
    obtain ⟨z, _, rfl⟩ := hx
    exact hkey _
  · rw [List.length_map]
    calc ((List.range 40).filter (fun z => ksv.testBit z)).length
        ≤ (List.range 40).length := List.length_filter_le _ _
      _ = 40 := List.length_range 40

/-- Congruence for `List.foldl` when the two step functions agree on the
elements of the list. -/
theorem foldl_congr_fn {α β : Type} (f g : α → β → α) (a : α) (l : List β)
    (H : ∀ acc, ∀ b ∈ l, f acc b = g acc b) : l.foldl f a = l.foldl g a := by
  induction l generalizing a with
  | nil => rfl
  | cons x l ih =>
    rw [List.foldl_cons, List.foldl_cons, H a x (by simp)]
    exact ih _ (fun acc b hb => H acc b (by simp [hb]))

/-- Peeling the most significant of `k + 1` little-endian nibbles. -/
theorem parseK_succ (k : Nat) (t : List Char) :
    parseK (k + 1) t = parseK k t + char_to_uint8_t (t.getD k (Char.ofNat 0)) * 16 ^ k := by
  simp [parseK, List.range_succ]

/-- Reading nibbles off the empty string yields 0. -/
theorem parseK_nil : ∀ k, parseK k ([] : List Char) = 0 := by
  intro k
  unfold parseK
  apply List.sum_eq_zero
  intro x hx
  obtain ⟨j, _, rfl⟩ := List.mem_map.mp hx
  simp [char_to_uint8_t_null]

/-- Peeling the least significant nibble of a nonempty string. -/
theorem parseK_cons (a : Char) (t : List Char) :
    ∀ k, parseK (k + 1) (a :: t) = char_to_uint8_t a + 16 * parseK k t
  | 0 => by simp [parseK, List.range_succ]
  | k + 1 => by
    rw [parseK_succ (k + 1) (a :: t), parseK_cons a t k, parseK_succ k t,
      List.getD_cons_succ]
    ring

/-- `hexValue`'s fold from an arbitrary accumulator. -/
theorem hexValue_aux (s : List Char) :
    ∀ acc, s.foldl (fun acc2 c => 16 * acc2 + char_to_uint8_t c) acc =
      acc * 16 ^ s.length + hexValue s := by
  induction s with
  | nil => intro acc; simp [hexValue]
  | cons a s ih =>
    intro acc
    rw [List.foldl_cons]
    rw [ih (16 * acc + char_to_uint8_t a)]
    have hs : hexValue (a :: s) = char_to_uint8_t a * 16 ^ s.length + hexValue s := by
      unfold hexValue
      rw [List.foldl_cons]
      have := ih (16 * 0 + char_to_uint8_t a)
      simpa using this
    rw [hs, List.length_cons]
    ring

/-- `hexValue` splits over append: the prefix is shifted past the suffix. -/
theorem hexValue_append (u s : List Char) :
    hexValue (u ++ s) = hexValue u * 16 ^ s.length + hexValue s := by
  unfold hexValue
  rw [List.foldl_append]
  exact hexValue_aux s _

/-- Leading `'0'` padding does not change the hex value. -/
theorem hexValue_replicate_zero (m : Nat) (s : List Char) :
    hexValue (List.replicate m '0' ++ s) = hexValue s := by
  rw [hexValue_append]
  have hz : hexValue (List.replicate m '0') = 0 := by
    induction m with
    | zero => simp [hexValue]
    | succ m ih =>
      rw [List.replicate_succ]
      have := hexValue_aux (List.replicate m '0') (16 * 0 + char_to_uint8_t '0')
      unfold hexValue
      rw [List.foldl_cons]
      unfold hexValue at this ih
      rw [this, ih]
      norm_num
      rfl
  rw [hz, Nat.zero_mul, Nat.zero_add]

/-- Pulling one hex digit through a modulus: `(H*16 + r) % (m*16)` keeps the
low digit `r` and reduces `H` modulo `m`. -/
theorem mod_mul_step (H r m : Nat) (hm : 0 < m) (hr : r < 16) :
    (H * 16 + r) % (m * 16) = H % m * 16 + r := by
  obtain ⟨q, hq⟩ : ∃ q, H = m * q + H % m := ⟨H / m, (Nat.div_add_mod _ _).symm⟩
  have h1 : H * 16 + r = H % m * 16 + r + q * (m * 16) := by
    conv_lhs => rw [hq]
    ring
  rw [h1, Nat.add_mul_mod_self_right]
  apply Nat.mod_eq_of_lt
  have h2 : H % m < m := Nat.mod_lt _ hm
  have h3 : H % m + 1 ≤ m := h2
  calc H % m * 16 + r < H % m * 16 + 16 := Nat.add_lt_add_left hr _
    _ = (H % m + 1) * 16 := by ring
    _ ≤ m * 16 := Nat.mul_le_mul_right 16 h3

/-- Reading the first `k` nibbles of the reversed string computes the MSB-first
hex value modulo `16 ^ k`. -/
theorem parseK_reverse (s : List Char) : ∀ k, parseK k s.reverse = hexValue s % 16 ^ k := by
  induction s using List.reverseRecOn with
  | nil => intro k; simp [parseK_nil, hexValue]
  | append_singleton l a ih =>
    intro k
    rw [List.reverse_append, List.reverse_singleton, List.singleton_append]
    cases k with
    | zero => simp [parseK, Nat.mod_one]
    | succ k =>
      rw [parseK_cons, ih k, hexValue_append]
      have ha : hexValue [a] = char_to_uint8_t a := by
        unfold hexValue
        rw [List.foldl_cons, List.foldl_nil]
        norm_num
      rw [ha, List.length_singleton, pow_one, pow_succ]
      rw [mod_mul_step (hexValue l) (char_to_uint8_t a) (16 ^ k)
        (pow_pos (by norm_num) k) (char_to_uint8_t_lt a)]
      ring

/-- Unfolding `ksv_string_to_bitset`: the sixteen union fields amount to
`parseK 16` of the reversed (and possibly padded) string. -/
theorem ksv_string_to_bitset_eq_parseK (bits : Nat) (s : List Char) :
    ksv_string_to_bitset bits s =
      parseK 16
          (if s.length < 15 then (List.replicate (15 - s.length) '0' ++ s).reverse
           else s.reverse) %
        2 ^ bits := by
  unfold ksv_string_to_bitset
  apply congrArg (fun x => x % 2 ^ bits)
  simp [parseK, List.range_succ]
  ring

/-- Master parser lemma: for every target width up to 64 bits,
`ksv_string_to_bitset` computes the MSB-first hex value of the input string
truncated to the target width. -/
theorem ksv_string_to_bitset_eq_hexValue (bits : Nat) (hbits : bits ≤ 64)
    (s : List Char) : ksv_string_to_bitset bits s = hexValue s % 2 ^ bits := by
  rw [ksv_string_to_bitset_eq_parseK]
  have h16 : (16 : Nat) ^ 16 = 2 ^ 64 := by norm_num
  by_cases hlen : s.length < 15
  · rw [if_pos hlen, parseK_reverse, hexValue_replicate_zero, h16,
      Nat.mod_mod_of_dvd _ (pow_dvd_pow 2 hbits)]
  · rw [if_neg hlen, parseK_reverse, h16,
      Nat.mod_mod_of_dvd _ (pow_dvd_pow 2 hbits)]

/-- The four-step nibble assembly evaluated against the nibble's own bits. -/
theorem nibble_fold (w : Nat) (hw : w < 16) :
    (List.range 4).foldl
      (fun nibble_value k =>
        if w.testBit (3 - k) then nibble_value ||| (1 <<< (3 - k)) else nibble_value)
      0 = w := by
  revert w
  decide

/-- The nibble assembled by `bitset_to_hex` at position `i < n` of a `4 * n`
bit vector is hex digit `i` (most significant first) of the value. -/
theorem hex_digit (n v i : Nat) (hi : i < n) :
    (List.range 4).foldl
      (fun nibble_value k =>
        if v.testBit (4 * n - 1 - i * 4 - k) then nibble_value ||| (1 <<< (3 - k))
        else nibble_value)
      0 = v / 16 ^ (n - 1 - i) % 16 := by
  have hw : v / 16 ^ (n - 1 - i) % 16 < 16 := Nat.mod_lt _ (by norm_num)
  have he : (16 : Nat) ^ (n - 1 - i) = 2 ^ (4 * (n - 1 - i)) := by
    rw [show (16 : Nat) = 2 ^ 4 from rfl, ← pow_mul]
  have hbit : ∀ k, k < 4 →
      v.testBit (4 * n - 1 - i * 4 - k) =
        (v / 16 ^ (n - 1 - i) % 16).testBit (3 - k) := by
    intro k hk
    rw [he, show (16 : Nat) = 2 ^ 4 from rfl, Nat.testBit_mod_two_pow,
      ← Nat.shiftRight_eq_div_pow, Nat.testBit_shiftRight]
    have hidx : 4 * n - 1 - i * 4 - k = 4 * (n - 1 - i) + (3 - k) := by omega
    have h34 : 3 - k < 4 := by omega
    rw [hidx]
    simp [h34]
  have hfold := foldl_congr_fn
    (fun nibble_value k =>
      if v.testBit (4 * n - 1 - i * 4 - k) then nibble_value ||| (1 <<< (3 - k))
      else nibble_value)
    (fun nibble_value k =>
      if (v / 16 ^ (n - 1 - i) % 16).testBit (3 - k) then nibble_value ||| (1 <<< (3 - k))
      else nibble_value)
    0 (List.range 4)
    (fun acc k hk => by simp only [hbit k (List.mem_range.mp hk)])
  rw [hfold]
  exact nibble_fold _ hw

/-- Parsing a rendered hex digit recovers the digit. -/
theorem char_to_uint8_t_hex_map (d : Nat) (hd : d < 16) :
    char_to_uint8_t (hex_map.getD d ' ') = d := by
  revert d
  decide

/-- `bitset_to_hex` over a `4 * n` bit width renders the `n` hex digits of the
value, most significant first. -/
theorem bitset_to_hex_digits (n v : Nat) :
    bitset_to_hex (4 * n) v =
      (List.range n).map (fun i => hex_map.getD (v / 16 ^ (n - 1 - i) % 16) ' ') := by
  unfold bitset_to_hex
  rw [show 4 * n / 4 = n from by omega]
  apply List.map_congr_left
  intro i hi
  rw [hex_digit n v i (List.mem_range.mp hi)]

/-- Hex digits below position `n` are unchanged by reduction modulo `16 ^ n`. -/
theorem digit_mod_stable (n v e : Nat) (he : e < n) :
    v % 16 ^ n / 16 ^ e % 16 = v / 16 ^ e % 16 := by
  rw [Nat.div_mod_eq_mod_mul_div (v % 16 ^ n) (16 ^ e) 16,
    Nat.div_mod_eq_mod_mul_div v (16 ^ e) 16,
    show (16 : Nat) ^ e * 16 = 16 ^ (e + 1) from by rw [pow_succ],
    Nat.mod_mod_of_dvd v (pow_dvd_pow 16 (by omega : e + 1 ≤ n))]

/-- Peeling the most significant digit off the digit list. -/
theorem digits_succ (n v : Nat) :
    digits (n + 1) v = v / 16 ^ n % 16 :: digits n (v % 16 ^ n) := by
  unfold digits
  rw [List.range_succ_eq_map, List.map_cons, List.map_map]
  refine congrArg₂ List.cons ?_ ?_
  · show v / 16 ^ (n + 1 - 1 - 0) % 16 = v / 16 ^ n % 16
    norm_num
  · apply List.map_congr_left
    intro i hi
    have hi2 := List.mem_range.mp hi
    show v / 16 ^ (n + 1 - 1 - (i + 1)) % 16 = v % 16 ^ n / 16 ^ (n - 1 - i) % 16
    rw [show n + 1 - 1 - (i + 1) = n - 1 - i from by omega,
      digit_mod_stable n v (n - 1 - i) (by omega)]

/-- Every rendered digit is a nibble. -/
theorem digits_lt (n v : Nat) : ∀ d ∈ digits n v, d < 16 := by
  intro d hd
  unfold digits at hd
  obtain ⟨i, _, rfl⟩ := List.mem_map.mp hd
  exact Nat.mod_lt _ (by norm_num)

/-- Folding the MSB-first digit list of `v < 16 ^ n` back into a number
recovers `v`. -/
theorem foldl_digits : ∀ (n v acc : Nat), v < 16 ^ n →
    (digits n v).foldl (fun acc2 d => 16 * acc2 + d) acc = acc * 16 ^ n + v
  | 0, v, acc, hv => by
    unfold digits
    simp
    omega
  | n + 1, v, acc, hv => by
    rw [digits_succ, List.foldl_cons]
    have hmod : v % 16 ^ n < 16 ^ n := Nat.mod_lt _ (pow_pos (by norm_num) n)
    rw [foldl_digits n (v % 16 ^ n) _ hmod]
    have hd : v / 16 ^ n % 16 = v / 16 ^ n := by
      apply Nat.mod_eq_of_lt
      apply Nat.div_lt_of_lt_mul
      rw [← pow_succ]
      exact hv
    rw [hd]
    have hdm := Nat.div_add_mod v (16 ^ n)
    calc (16 * acc + v / 16 ^ n) * 16 ^ n + v % 16 ^ n
        = acc * 16 ^ (n + 1) + (16 ^ n * (v / 16 ^ n) + v % 16 ^ n) := by ring
      _ = acc * 16 ^ (n + 1) + v := by rw [hdm]

/-- Round-trip core: the hex value of the rendering of `v < 16 ^ n` is `v`. -/
theorem hexValue_toHex (n v : Nat) (hv : v < 16 ^ n) :
    hexValue (bitset_to_hex (4 * n) v) = v := by
  rw [bitset_to_hex_digits n v]
  have hmap : (List.range n).map (fun i => hex_map.getD (v / 16 ^ (n - 1 - i) % 16) ' ') =
      (digits n v).map (fun d => hex_map.getD d ' ') := by
    unfold digits
    rw [List.map_map]
    rfl
  rw [hmap]
  unfold hexValue
  rw [List.foldl_map]
  show List.foldl (fun acc d => 16 * acc + char_to_uint8_t (hex_map.getD d ' ')) 0
      (digits n v) = v
  have hcong := foldl_congr_fn
    (fun acc d => 16 * acc + char_to_uint8_t (hex_map.getD d ' '))
    (fun acc d => 16 * acc + d)
    0 (digits n v)
    (fun acc d hd => by simp only [char_to_uint8_t_hex_map d (digits_lt n v d hd)])
  rw [hcong, foldl_digits n v 0 hv]
  omega

/-! ## Claim theorems -/

/-- C1: the claim states that `check_ksv` returns true iff the Hamming weight
of the KSV is exactly 20.  The code returns `ksv.count() != 20`, the opposite
polarity: on the weight-20 KSV `0x00000fffff` (which the header documentation
of `check_ksv` explicitly names as correct, i.e. `true`) the function returns
`false`.  This theorem records the divergence at that input. -/
theorem check_ksv_weight20_divergence :
    popcount40 0xfffff = 20 ∧ check_ksv 0xfffff = false := by decide

/-- C6: every character outside the sixteen lowercase hex digits (uppercase
`A`-`F` included) is mapped to the nibble value 0 by `char_to_uint8_t`; no
error path exists, so parsing is total. -/
theorem char_to_uint8_t_default (c : Char) (h : c ∉ hex_map) :
    char_to_uint8_t c = 0 := by
  unfold char_to_uint8_t
  split <;> simp_all [hex_map]

/-- Witness for C6 at the concrete input `'A'`. -/
theorem char_to_uint8_t_default_witness :
    ('A' ∉ hex_map) ∧ char_to_uint8_t 'A' = 0 :=
  ⟨by decide, char_to_uint8_t_default 'A' (by decide)⟩

/-- C7: for every permutation of the 40 bit positions (the random shuffle of
the source modelled as an arbitrary input permutation), `random_ksv` — which
applies that permutation to the canonical pattern `0xfffff` with the 20
low-order bits set — yields a KSV of Hamming weight exactly 20. -/
theorem random_ksv_popcount (indices : Nat → Nat)
    (hperm : ((List.range 40).map indices).Perm (List.range 40)) :
    popcount40 (random_ksv indices) = 20 := by
  unfold popcount40 random_ksv
  have hcongr : ∀ z ∈ List.range 40,
      ((natOfBits (fun i => (0xfffff : Nat).testBit (indices i)) 40).testBit z) ↔
        ((0xfffff : Nat).testBit (indices z)) := by
    intro z hz
    rw [testBit_natOfBits]
    simp [List.mem_range.mp hz]
  rw [List.countP_congr hcongr]
  have hmap := List.countP_map (fun x => (0xfffff : Nat).testBit x) indices (List.range 40)
  have hperm2 := hperm.countP_eq (fun x => (0xfffff : Nat).testBit x)
  have : ((List.range 40).map indices).countP (fun x => (0xfffff : Nat).testBit x) =
      (List.range 40).countP (fun z => (0xfffff : Nat).testBit (indices z)) := by
    rw [hmap]; rfl
  rw [← this, hperm2]
  decide

/-- Witness for C7 with the identity permutation. -/
theorem random_ksv_popcount_witness :
    popcount40 (random_ksv (fun i => i)) = 20 :=
  random_ksv_popcount (fun i => i) (by simp)

/-- C10: both derivations read the matrix only at linear indices below 1600
(`z * 40 + i`, respectively `i * 40 + z`, with `i, z < 40`), so every access
to the 1600-entry matrix is in bounds: two matrices agreeing below index 1600
produce identical source and sink keys, and both derivations are total. -/
theorem generate_in_bounds (ksv : Nat) (M M2 : Nat → Nat)
    (h : ∀ j, j < 1600 → M j = M2 j) :
    generate_source ksv M = generate_source ksv M2 ∧
      generate_sink ksv M = generate_sink ksv M2 := by
  refine ⟨?_, ?_⟩
  · unfold generate_source
    apply List.map_congr_left
    intro i hi
    have hi40 := List.mem_range.mp hi
    apply congrArg (fun t => t % 2 ^ 56)
    apply List.foldl_ext
    intro acc z hz
    have hz40 := List.mem_range.mp hz
    have hidx : z * 40 + i < 1600 := by omega
    rw [h _ hidx]
  · unfold generate_sink
    apply List.map_congr_left
    intro i hi
    have hi40 := List.mem_range.mp hi
    apply congrArg (fun t => t % 2 ^ 56)
    apply List.foldl_ext
    intro acc z hz
    have hz40 := List.mem_range.mp hz
    have hidx : i * 40 + z < 1600 := by omega
    rw [h _ hidx]

/-- Witness for C10: a matrix and its truncation outside index 1600 give the
same derived keys. -/
theorem generate_in_bounds_witness :
    generate_source 0xfffff (fun j => j) =
        generate_source 0xfffff (fun j => if j < 1600 then j else 7) ∧
      generate_sink 0xfffff (fun j => j) =
        generate_sink 0xfffff (fun j => if j < 1600 then j else 7) :=
  generate_in_bounds 0xfffff _ _ (fun j hj => by simp [hj])

/-- C2: for a matrix of 56-bit entries, entry `i < 40` of `generate_source` is
the exact sum of the matrix entries at linear index `z * 40 + i` over the set
KSV bits `z < 40`, reduced modulo `2 ^ 56`; the accumulation never overflows
the 64-bit accumulator (the exact sum is below `2 ^ 64`). -/
theorem generate_source_spec (ksv : Nat) (key : Nat → Nat)
    (hkey : ∀ j, key j < 2 ^ 56) (i : Nat) (hi : i < 40) :
    (generate_source ksv key).getD i 0 = source_sum ksv key i % 2 ^ 56 ∧
      source_sum ksv key i < 2 ^ 64 := by
  obtain ⟨hel, hlen⟩ := filtered_terms_facts ksv key hkey (fun z => z * 40 + i)
  have hsum : source_sum ksv key i < 2 ^ 64 := sum_lt_two_pow_64 _ hlen hel
  refine ⟨?_, hsum⟩
  rw [generate_source_getD ksv key i hi,
    foldl_guard_filter (fun z => ksv.testBit z) (fun z => key (z * 40 + i)),
    foldl_wrap_add _ 0 (by norm_num), Nat.zero_add]
  show source_sum ksv key i % 2 ^ 64 % 2 ^ 56 = source_sum ksv key i % 2 ^ 56
  rw [Nat.mod_eq_of_lt hsum]

/-- Witness for C2 with the all-ones matrix: slot 0 sums 20 unit entries. -/
theorem generate_source_spec_witness :
    (∀ j, (fun _ => 1 : Nat → Nat) j < 2 ^ 56) ∧ 0 < 40 ∧
      ((generate_source 0xfffff (fun _ => 1)).getD 0 0 =
          source_sum 0xfffff (fun _ => 1) 0 % 2 ^ 56 ∧
        source_sum 0xfffff (fun _ => 1) 0 < 2 ^ 64) :=
  ⟨fun _ => by norm_num, by norm_num,
    generate_source_spec 0xfffff (fun _ => 1) (fun _ => by norm_num) 0 (by norm_num)⟩

/-- C3: entry `i < 40` of `generate_sink` is computed with the same wrapped
accumulation and modulo-`2 ^ 56` truncation as `generate_source`, but the
matrix entry for slot `i` and set KSV bit `z` is taken at linear index
`i * 40 + z` (row indexing). -/
theorem generate_sink_spec (ksv : Nat) (key : Nat → Nat)
    (hkey : ∀ j, key j < 2 ^ 56) (i : Nat) (hi : i < 40) :
    (generate_sink ksv key).getD i 0 = sink_sum ksv key i % 2 ^ 56 ∧
      sink_sum ksv key i < 2 ^ 64 := by
  obtain ⟨hel, hlen⟩ := filtered_terms_facts ksv key hkey (fun z => i * 40 + z)
  have hsum : sink_sum ksv key i < 2 ^ 64 := sum_lt_two_pow_64 _ hlen hel
  refine ⟨?_, hsum⟩
  rw [generate_sink_getD ksv key i hi,
    foldl_guard_filter (fun z => ksv.testBit z) (fun z => key (i * 40 + z)),
    foldl_wrap_add _ 0 (by norm_num), Nat.zero_add]
  show sink_sum ksv key i % 2 ^ 64 % 2 ^ 56 = sink_sum ksv key i % 2 ^ 56
  rw [Nat.mod_eq_of_lt hsum]

/-- Witness for C3 with the all-max matrix: slot 0 wraps `20 * (2^56 - 1)`
modulo `2 ^ 56`. -/
theorem generate_sink_spec_witness :
    (∀ j, (fun _ => 2 ^ 56 - 1 : Nat → Nat) j < 2 ^ 56) ∧ 0 < 40 ∧
      ((generate_sink 0xfffff (fun _ => 2 ^ 56 - 1)).getD 0 0 =
          sink_sum 0xfffff (fun _ => 2 ^ 56 - 1) 0 % 2 ^ 56 ∧
        sink_sum 0xfffff (fun _ => 2 ^ 56 - 1) 0 < 2 ^ 64) :=
  ⟨fun _ => by norm_num, by norm_num,
    generate_sink_spec 0xfffff (fun _ => 2 ^ 56 - 1) (fun _ => by norm_num) 0 (by norm_num)⟩

/-- C8: `generate_source` on a matrix `M` equals `generate_sink` on any
transposed matrix `T` with `T[i*40+z] = M[z*40+i]` for all `i, z < 40`: the
two derivations differ only by matrix transposition. -/
theorem generate_source_eq_sink_transpose (ksv : Nat) (M T : Nat → Nat)
    (hT : ∀ i z, i < 40 → z < 40 → T (i * 40 + z) = M (z * 40 + i)) :
    generate_source ksv M = generate_sink ksv T := by
  unfold generate_source generate_sink
  apply List.map_congr_left
  intro i hi
  have hi40 := List.mem_range.mp hi
  apply congrArg (fun t => t % 2 ^ 56)
  apply List.foldl_ext
  intro acc z hz
  have hz40 := List.mem_range.mp hz
  rw [hT i z hi40 hz40]

/-- Witness for C8 with the identity-valued matrix and its explicit
transpose. -/
theorem generate_source_eq_sink_transpose_witness :
    generate_source 0xfffff (fun j => j) =
      generate_sink 0xfffff (fun j => (j % 40) * 40 + j / 40) :=
  generate_source_eq_sink_transpose 0xfffff _ _
    (fun i z hi hz => by
      show (i * 40 + z) % 40 * 40 + (i * 40 + z) / 40 = z * 40 + i
      omega)

/-- C5: for each instantiated target width (40, 56 and 64 bits) and every
input string, `ksv_string_to_bitset` right-aligns the input (left zero-padding
below 15 characters, no padding at 15 or more) and parses it as a
most-significant-digit-first hex number truncated to the target width. -/
theorem ksv_string_to_bitset_msb_first (bits : Nat) (s : List Char)
    (hb : bits = 40 ∨ bits = 56 ∨ bits = 64) :
    ksv_string_to_bitset bits s = hexValue s % 2 ^ bits := by
  rcases hb with h | h | h <;> subst h <;>
    exact ksv_string_to_bitset_eq_hexValue _ (by norm_num) s

/-- Witness for C5 at width 40 on a short input. -/
theorem ksv_string_to_bitset_msb_first_witness :
    ((40 : Nat) = 40 ∨ (40 : Nat) = 56 ∨ (40 : Nat) = 64) ∧
      ksv_string_to_bitset 40 ['1', 'a', 'f'] = hexValue ['1', 'a', 'f'] % 2 ^ 40 :=
  ⟨Or.inl rfl, ksv_string_to_bitset_msb_first 40 ['1', 'a', 'f'] (Or.inl rfl)⟩

/-- C9: for every target width and every input of length 16 or more, the
parsed value depends only on the final 16 characters: any prefix before them
is ignored. -/
theorem ksv_string_to_bitset_last16 (bits : Nat) (u s : List Char)
    (hs : s.length = 16) :
    ksv_string_to_bitset bits (u ++ s) = ksv_string_to_bitset bits s := by
  rw [ksv_string_to_bitset_eq_parseK, ksv_string_to_bitset_eq_parseK]
  have h1 : ¬((u ++ s).length < 15) := by
    rw [List.length_append, hs]
    omega
  have h2 : ¬(s.length < 15) := by omega
  rw [if_neg h1, if_neg h2, parseK_reverse, parseK_reverse, hexValue_append, hs]
  rw [Nat.add_comm, Nat.add_mul_mod_self_right]

/-- Witness for C9: a junk character in front of a full 16-digit string does
not change the parse. -/
theorem ksv_string_to_bitset_last16_witness :
    ("0123456789abcdef".toList).length = 16 ∧
      ksv_string_to_bitset 40 (['z'] ++ "0123456789abcdef".toList) =
        ksv_string_to_bitset 40 "0123456789abcdef".toList :=
  ⟨rfl, ksv_string_to_bitset_last16 40 ['z'] "0123456789abcdef".toList rfl⟩

/-- C4: for the instantiated widths 40 and 56, parsing the hex rendering of an
N-bit value gives the value back: `ksv_string_to_bitset` is a left inverse of
`bitset_to_hex` on values below `2 ^ N`. -/
theorem hex_round_trip (bits v : Nat) (hb : bits = 40 ∨ bits = 56)
    (hv : v < 2 ^ bits) :
    ksv_string_to_bitset bits (bitset_to_hex bits v) = v := by
  rcases hb with h | h <;> subst h
  · rw [ksv_string_to_bitset_eq_hexValue 40 (by norm_num) _,
      show bitset_to_hex 40 v = bitset_to_hex (4 * 10) v from rfl,
      hexValue_toHex 10 v (by norm_num at hv ⊢; exact hv)]
    exact Nat.mod_eq_of_lt hv
  · rw [ksv_string_to_bitset_eq_hexValue 56 (by norm_num) _,
      show bitset_to_hex 56 v = bitset_to_hex (4 * 14) v from rfl,
      hexValue_toHex 14 v (by norm_num at hv ⊢; exact hv)]
    exact Nat.mod_eq_of_lt hv

/-- Witness for C4 at width 40 on the canonical weight-20 KSV value. -/
theorem hex_round_trip_witness :
    ((40 : Nat) = 40 ∨ (40 : Nat) = 56) ∧ (0xfffff : Nat) < 2 ^ 40 ∧
      ksv_string_to_bitset 40 (bitset_to_hex 40 0xfffff) = 0xfffff :=
  ⟨Or.inl rfl, by norm_num,
    hex_round_trip 40 0xfffff (Or.inl rfl) (by norm_num)⟩

end HdcpGenKey
